import Mathlib

/-!
# A verification development for `linked_list.c`

The C program keeps a singly linked list of words.  Each node owns a
`word_data` record (a heap copy of the text and an `int` counter) and a `next`
pointer.  The functions work through double pointers (`s_word_node **`): the
address of the link field that references a node, which is either the `head`
field of the list or the `next` field of the node in front.

Embedding.

* A C string is the list of its characters in front of the terminating NUL,
  each an `unsigned char` value in `1 .. 255`.
* `strcmp` walks both strings and returns the difference of the first pair of
  differing `unsigned char`s, the end of a string reading as the NUL byte `0`.
* The `int` counter is an `Int` in the range of a 32-bit `int`. ISO C leaves
  `occurrences++` at `INT_MAX` undefined; the model takes the two's-complement
  result, `INT_MIN`.
* A node pointer is `NULL` or a node with its record and its `next` pointer.
* An `s_word_node **` into a chain is the index of a link field: `0` is the
  head slot, `k + 1` the `next` field of the node at index `k`.
* Functions that write through a pointer return the new content of what the
  pointer refers to.
* `malloc` returns a fresh block; released blocks are not tracked.
-/

namespace LinkedList

/-! ## Characters, strings, `strcmp` -/

/-- A character of a C string that is not the terminating NUL, as the value of
an `unsigned char`. -/
abbrev CChar := {c : Nat // 0 < c ∧ c < 256}

/-- A C string (`char *` to a NUL-terminated buffer): the characters in front
of the terminator. -/
abbrev CStr := List CChar

/-- The `strlen` of the C library: the number of characters in front of the
terminator. -/
def strlen (s : CStr) : Nat := s.length

/-- The `strcmp` of the C library: compares the strings character by character
as `unsigned char`; the buffer of a string that has ended reads `0`. The result
is the difference of the first two characters that differ, and `0` when both
strings end together. -/
def strcmp : CStr → CStr → Int
  | [], [] => 0
  | [], b :: _ => 0 - (b.val : Int)
  | a :: _, [] => (a.val : Int) - 0
  | a :: s, b :: t => if a.val = b.val then strcmp s t else (a.val : Int) - (b.val : Int)

/-- The `strncpy (dst, src, n)` of the C library for `n ≤ strlen src`: the
first `n` characters of `src`. -/
def strncpy (src : CStr) (n : Nat) : CStr := src.take n

/-! ## The `int` counter -/

/-- Width of a C `int` in bits. -/
def INT_WIDTH : Nat := 32

/-- The largest `int`. -/
def INT_MAX : Int := 2 ^ (INT_WIDTH - 1) - 1

/-- The smallest `int`. -/
def INT_MIN : Int := -(2 ^ (INT_WIDTH - 1))

/-- The value of an integer as a two's-complement `int`. -/
def int_wrap (x : Int) : Int := (x + 2 ^ (INT_WIDTH - 1)) % 2 ^ INT_WIDTH - 2 ^ (INT_WIDTH - 1)

/-- The C statement `x++` on an `int`. -/
def int_incr (x : Int) : Int := int_wrap (x + 1)

/-! ## Data model -/

/-- The C struct `word_data`: the owned text and the occurrence counter. -/
structure s_word_data where
  data : CStr
  occurrences : Int
deriving DecidableEq

/-- A value of type `s_word_node *`: `NULL`, or a node with its `word` record
and its `next` pointer. -/
inductive s_word_node where
  | NULL : s_word_node
  | node (word : s_word_data) (next : s_word_node) : s_word_node
deriving DecidableEq

/-- The C struct `word_list`. -/
structure s_word_list where
  head : s_word_node
deriving DecidableEq

open s_word_node

/-- The records of a chain, head to tail. -/
def entries : s_word_node → List s_word_data
  | NULL => []
  | node word next => word :: entries next

/-- Writing through an `s_word_node **`: `f` maps the old content of the link
field to the new one. Slot `0` is the field that refers to the first node of
the chain, slot `k + 1` is the `next` field of the node at index `k`. An index
past the last `next` field names no link field, and nothing is written. -/
def at_slot (f : s_word_node → s_word_node) : Nat → s_word_node → s_word_node
  | 0, p => f p
  | _ + 1, NULL => NULL
  | k + 1, node word next => node word (at_slot f k next)

/-! ## The functions of `linked_list.c` -/

/-- C function `create_word_data`: a fresh buffer of `strlen word + 1` bytes
with the first `strlen word` characters of `word` and a NUL after them. -/
def create_word_data (word : CStr) : CStr :=
  let word_len := strlen word
  strncpy word word_len

/-- C function `delete_word_data` on the content of a `char *` field: frees
the text if there is one and leaves `NULL`. -/
def delete_word_data (word : Option CStr) : Option CStr :=
  match word with
  | some _ => none
  | none => none

/-- C function `create_node`. -/
def create_node (word : CStr) (next : s_word_node) : s_word_node :=
  node ⟨create_word_data word, 1⟩ next

/-- The body of `delete_node` on the content of the slot, when the slot pointer
is not `NULL`: a node is released, with its text, and the slot takes the
pointer to its successor; an empty slot stays empty. -/
def delete_node_slot : s_word_node → s_word_node
  | NULL => NULL
  | node word next =>
    let _data := delete_word_data (some word.data)
    next

/-- C function `delete_node`. The argument `node` is `none` for a `NULL` slot
pointer and `some k` for the address of link field `k` of the chain `chain`.
Returns the chain after the call. -/
def delete_node (node : Option Nat) (chain : s_word_node) : s_word_node :=
  match node with
  | none => chain
  | some k => at_slot delete_node_slot k chain

/-- C function `create_word_list`. -/
def create_word_list : s_word_list := ⟨NULL⟩

/-- C function `insert_word`, given the address `node` of link field `node` of
the chain `chain`. Returns the chain after the call. -/
def insert_word (word : CStr) (node : Nat) (chain : s_word_node) : s_word_node :=
  at_slot (fun next => create_node word next) node chain

/-- Reading through an `s_word_node **`: the content `*node` of link field
`node` of the chain. An index past the last `next` field names no link field
and reads as `NULL`. -/
def slot_content : Nat → s_word_node → s_word_node
  | 0, p => p
  | _ + 1, NULL => NULL
  | k + 1, node _ next => slot_content k next

/-- The C statement `(*node)->word.occurrences++` on the content of the slot
`node`. -/
def increment_occurrences : s_word_node → s_word_node
  | NULL => NULL
  | node w next => node ⟨w.data, int_incr w.occurrences⟩ next

/-- The `while` loop of `insert_word_sorted` and the call of `insert_word`
behind it. `head` is the chain of the list, `cursor` the variable `node` of the
function (the index of a link field of the chain) and `cur` the content `*node`
of that field. Returns the chain at the `return`, and the cursor at that
point, which counts how often the loop has run `node = &((*node)->next)`. -/
def insert_word_sorted_loop (word : CStr) (head : s_word_node) :
    Nat → s_word_node → s_word_node × Nat
  | cursor, NULL => (insert_word word cursor head, cursor)
  | cursor, node w next =>
    if strcmp word w.data ≥ 0 then
      if 0 = strcmp w.data word then
        (at_slot increment_occurrences cursor head, cursor)
      else
        insert_word_sorted_loop word head (cursor + 1) next
    else
      (insert_word word cursor head, cursor)

/-- C function `insert_word_sorted`. The argument `list` is `none` for a `NULL`
list pointer. Returns the list object after the call. -/
def insert_word_sorted (word : CStr) (list : Option s_word_list) : Option s_word_list :=
  match list with
  | none => none
  | some l => some ⟨(insert_word_sorted_loop word l.head 0 l.head).1⟩

/-- Number of nodes of a chain. -/
def chain_length (p : s_word_node) : Nat := (entries p).length

/-- The `while((*list)->head)` loop of `delete_word_list`: the list object
when the loop exits, and the number of calls of `delete_node` it made. -/
def delete_word_list_loop (l : s_word_list) : s_word_list × Nat :=
  match h : l.head with
  | NULL => (l, 0)
  | node _ _ =>
    let r := delete_word_list_loop ⟨delete_node (some 0) l.head⟩
    (r.1, r.2 + 1)
termination_by chain_length l.head
decreasing_by
  simp [h, delete_node, at_slot, delete_node_slot, chain_length, entries]

/-- C function `delete_word_list` on the content of the list reference of the
caller (`none` is `NULL`): the list is emptied node by node, the list object
is freed and the reference is set to `NULL`. -/
def delete_word_list (list : Option s_word_list) : Option s_word_list :=
  match list with
  | none => none
  | some l =>
    let _emptied := delete_word_list_loop l
    none

/-! ## The driver `main` -/

/-- The string literal "aaa". -/
def str_aaa : CStr := [⟨97, by decide⟩, ⟨97, by decide⟩, ⟨97, by decide⟩]

/-- The string literal "bbb". -/
def str_bbb : CStr := [⟨98, by decide⟩, ⟨98, by decide⟩, ⟨98, by decide⟩]

/-- The string literal "ccc". -/
def str_ccc : CStr := [⟨99, by decide⟩, ⟨99, by decide⟩, ⟨99, by decide⟩]

/-- The string literal "ddd". -/
def str_ddd : CStr := [⟨100, by decide⟩, ⟨100, by decide⟩, ⟨100, by decide⟩]

/-- The string literal "eee". -/
def str_eee : CStr := [⟨101, by decide⟩, ⟨101, by decide⟩, ⟨101, by decide⟩]

/-- The array `strings` of `main`. -/
def strings : List CStr :=
  [str_bbb, str_ddd, str_aaa, str_bbb, str_ccc, str_eee, str_bbb, str_aaa, str_bbb]

/-- The loop of test one of `main` over an array `ws`:
`insert_word(ws[i], &(list->head))` for each index in turn. -/
def insert_words_at_head (ws : List CStr) (list : s_word_list) : s_word_list :=
  ws.foldl (fun l w => ⟨insert_word w 0 l.head⟩) list

/-- The loop of test four of `main` over an array `ws`:
`insert_word_sorted(ws[i], list)` for each index in turn. -/
def insert_words_sorted (ws : List CStr) (list : Option s_word_list) : Option s_word_list :=
  ws.foldl (fun l w => insert_word_sorted w l) list

/-- The chain of a list reference, head to tail; a `NULL` reference has none. -/
def list_entries (list : Option s_word_list) : List s_word_data :=
  match list with
  | none => []
  | some l => entries l.head

/-! ## Sequences of operations -/

/-- One call of a function that changes the chain of a list. -/
inductive Op where
  | insert_word (word : CStr) (slot : Nat) : Op
  | insert_word_sorted (word : CStr) : Op
  | delete_node (slot : Option Nat) : Op
deriving DecidableEq

/-- The list object after one call; the calls of `insert_word_sorted` are given
the address of the list object. -/
def Op.run (o : Op) (l : s_word_list) : s_word_list :=
  match o with
  | Op.insert_word word slot => ⟨LinkedList.insert_word word slot l.head⟩
  | Op.insert_word_sorted word => (LinkedList.insert_word_sorted word (some l)).getD l
  | Op.delete_node slot => ⟨LinkedList.delete_node slot l.head⟩

/-- The list object after a sequence of calls, first to last. -/
def run_ops (ops : List Op) (l : s_word_list) : s_word_list :=
  ops.foldl (fun s o => o.run s) l

/-- Whether a call is a call of `insert_word_sorted`. -/
def Op.is_sorted_insert : Op → Bool
  | Op.insert_word_sorted _ => true
  | _ => false

/-! ## Predicates of the specification -/

/-- The effect of the scan of `insert_word_sorted` on the content of the slot
the cursor stands at: what `insert_word_sorted_loop` writes, seen from the
cursor on. -/
def scan_slot (word : CStr) : s_word_node → s_word_node
  | NULL => create_node word NULL
  | node w next =>
    if strcmp word w.data ≥ 0 then
      if 0 = strcmp w.data word then
        increment_occurrences (node w next)
      else
        node w (scan_slot word next)
    else
      create_node word (node w next)

/-- The order of two records by their texts: strictly ascending. -/
def text_lt (x y : s_word_data) : Prop := strcmp x.data y.data < 0

instance text_lt_decidable (x y : s_word_data) : Decidable (text_lt x y) :=
  inferInstanceAs (Decidable (strcmp x.data y.data < 0))

/-- The list `l` tallies the words `ws` with counters reduced to `int`: it is
strictly ascending, its texts are the words of `ws`, and each counter is the
number of occurrences of its text in `ws`, wrapped to the range of `int`. -/
def tally_wrapped (ws : List CStr) (l : List s_word_data) : Prop :=
  l.Pairwise text_lt ∧
  (∀ e ∈ l, e.data ∈ ws ∧ e.occurrences = int_wrap (ws.count e.data)) ∧
  (∀ w ∈ ws, ∃ e ∈ l, e.data = w)

/-- The list `l` is the tally of `ws`: it is strictly ascending in `strcmp`
order, its texts are exactly the words of `ws`, and each counter is the number
of occurrences of its text in `ws`. -/
def is_tally (ws : List CStr) (l : List s_word_data) : Prop :=
  l.Pairwise text_lt ∧
  (∀ w, w ∈ l.map (fun e => e.data) ↔ w ∈ ws) ∧
  (∀ e ∈ l, e.occurrences = (ws.count e.data : Int))

/-- The records of `l` whose text is `w`. -/
def entries_with_text (w : CStr) (l : List s_word_data) : List s_word_data :=
  l.filter (fun e => decide (e.data = w))

/-- The list object after `n` calls `delete_node(&(list->head))`. -/
def delete_head_times (n : Nat) (l : s_word_list) : s_word_list :=
  Nat.iterate (fun s => ⟨delete_node (some 0) s.head⟩) n l

/-- The bytes of the block `new_data` when `create_word_data` returns: the
block has `word_len + 1` bytes, `strncpy` has written the first `word_len`, and
the assignment `new_data[word_len] = 0` the last one. -/
def create_word_data_block (word : CStr) : List Nat :=
  let word_len := strlen word
  (strncpy word word_len).map (fun c => c.val) ++ [0]

/-- The texts of a list of records, in order. -/
def texts (l : List s_word_data) : List CStr := l.map (fun e => e.data)

/-- The sum of the counters of a list of records. -/
def total_occurrences (l : List s_word_data) : Int := (l.map (fun e => e.occurrences)).sum

/-- Whether the text of a record is below `word` in `strcmp` order: the loop of
`insert_word_sorted` moves its cursor past such a node. -/
def text_below (word : CStr) (x : s_word_data) : Bool := decide (strcmp x.data word < 0)

/-- The nine-node chain that test one of `main` builds. -/
def test_one_chain : s_word_node := (insert_words_at_head strings create_word_list).head

end LinkedList

/-! ## Facts about `strcmp` -/

namespace LinkedList
open s_word_node

theorem strcmp_self (a : CStr) : strcmp a a = 0 := by
  induction a with
  | nil => simp [strcmp]
  | cons x s ih => simp [strcmp, ih]

theorem strcmp_swap (a b : CStr) : strcmp b a = -strcmp a b := by
  induction a generalizing b with
  | nil =>
    cases b with
    | nil => simp [strcmp]
    | cons y t => simp [strcmp]
  | cons x s ih =>
    cases b with
    | nil => simp [strcmp]
    | cons y t =>
      simp only [strcmp]
      by_cases h : x.val = y.val
      · have h2 : y.val = x.val := h.symm
        simp [h, ih]
      · have h2 : ¬ y.val = x.val := fun e => h e.symm
        simp [h, h2]

theorem eq_of_strcmp_eq_zero (a b : CStr) (h : strcmp a b = 0) : a = b := by
  induction a generalizing b with
  | nil =>
    cases b with
    | nil => rfl
    | cons y t =>
      have hy := y.property.1
      simp [strcmp] at h
      omega
  | cons x s ih =>
    cases b with
    | nil =>
      have hx := x.property.1
      simp [strcmp] at h
      omega
    | cons y t =>
      simp only [strcmp] at h
      by_cases hxy : x.val = y.val
      · simp only [hxy, if_true] at h
        rw [ih t h, Subtype.ext hxy]
      · simp only [hxy, if_false] at h
        omega

theorem strcmp_eq_zero_iff (a b : CStr) : strcmp a b = 0 ↔ a = b :=
  ⟨eq_of_strcmp_eq_zero a b, fun h => h ▸ strcmp_self a⟩

theorem strcmp_lt_trans (a b c : CStr) (hab : strcmp a b < 0) (hbc : strcmp b c < 0) :
    strcmp a c < 0 := by
  induction a generalizing b c with
  | nil =>
    cases c with
    | nil =>
      cases b with
      | nil => simp [strcmp] at hab
      | cons y t =>
        have hy := y.property.1
        simp [strcmp] at hbc
        omega
    | cons z u =>
      have hz := z.property.1
      simp [strcmp]
      omega
  | cons x s ih =>
    cases b with
    | nil =>
      have hx := x.property.1
      simp [strcmp] at hab
      omega
    | cons y t =>
      cases c with
      | nil =>
        have hy := y.property.1
        simp [strcmp] at hbc
        omega
      | cons z u =>
        simp only [strcmp] at hab hbc ⊢
        by_cases hxy : x.val = y.val
        · by_cases hyz : y.val = z.val
          · have hxz : x.val = z.val := hxy.trans hyz
            simp only [hxy, hyz, hxz, if_true] at hab hbc ⊢
            exact ih t u hab hbc
          · have hxz : ¬ x.val = z.val := fun e => hyz (hxy ▸ e)
            simp only [hxy, hyz, hxz, if_true, if_false] at hab hbc ⊢
            omega
        · simp only [hxy, if_false] at hab
          by_cases hyz : y.val = z.val
          · have hxz : ¬ x.val = z.val := fun e => hxy (e.trans hyz.symm)
            simp only [hxz, if_false]
            omega
          · simp only [hyz, if_false] at hbc
            have hxz : ¬ x.val = z.val := by omega
            simp only [hxz, if_false]
            omega

/-! ## Facts about the `int` counter -/

theorem INT_MAX_eq : INT_MAX = 2147483647 := by
  norm_num [INT_MAX, INT_WIDTH]

theorem INT_MIN_eq : INT_MIN = -2147483648 := by
  norm_num [INT_MIN, INT_WIDTH]

theorem int_wrap_eq (x : Int) : int_wrap x = (x + 2147483648) % 4294967296 - 2147483648 := by
  norm_num [int_wrap, INT_WIDTH]

theorem int_wrap_of_range (x : Int) (h1 : INT_MIN ≤ x) (h2 : x ≤ INT_MAX) : int_wrap x = x := by
  rw [INT_MIN_eq] at h1
  rw [INT_MAX_eq] at h2
  rw [int_wrap_eq]
  omega

theorem int_incr_of_lt (x : Int) (h1 : INT_MIN ≤ x) (h2 : x < INT_MAX) : int_incr x = x + 1 := by
  rw [INT_MIN_eq] at h1
  rw [INT_MAX_eq] at h2
  rw [int_incr, int_wrap_eq]
  omega

theorem int_incr_int_wrap (x : Int) : int_incr (int_wrap x) = int_wrap (x + 1) := by
  rw [int_incr, int_wrap_eq, int_wrap_eq, int_wrap_eq]
  omega

theorem int_wrap_one : int_wrap 1 = 1 := by
  rw [int_wrap_eq]
  omega

/-! ## Facts about the chain operations -/

@[simp] theorem create_word_data_eq (word : CStr) : create_word_data word = word := by
  simp [create_word_data, strncpy, strlen]

@[simp] theorem entries_NULL : entries NULL = [] := rfl

@[simp] theorem entries_node (w : s_word_data) (next : s_word_node) :
    entries (node w next) = w :: entries next := rfl

theorem entries_injective (p q : s_word_node) (h : entries p = entries q) : p = q := by
  induction p generalizing q with
  | NULL =>
    cases q with
    | NULL => rfl
    | node w next => simp at h
  | node w next ih =>
    cases q with
    | NULL => simp at h
    | node v nxt =>
      simp at h
      rw [h.1, ih nxt h.2]

theorem entries_insert_word (word : CStr) (k : Nat) (p : s_word_node)
    (hk : k ≤ (entries p).length) :
    entries (insert_word word k p) = (entries p).take k ++ ⟨word, 1⟩ :: (entries p).drop k := by
  induction k generalizing p with
  | zero => simp [insert_word, at_slot, create_node]
  | succ k ih =>
    cases p with
    | NULL => simp at hk
    | node w next =>
      have hk2 : k ≤ (entries next).length := by simpa using hk
      have := ih next hk2
      simp only [insert_word] at this
      simp [insert_word, at_slot, this]

theorem entries_delete_node (k : Nat) (p : s_word_node) :
    entries (delete_node (some k) p) = (entries p).take k ++ (entries p).drop (k + 1) := by
  induction k generalizing p with
  | zero =>
    cases p with
    | NULL => simp [delete_node, at_slot, delete_node_slot]
    | node w next => simp [delete_node, at_slot, delete_node_slot]
  | succ k ih =>
    cases p with
    | NULL => simp [delete_node, at_slot]
    | node w next =>
      have := ih next
      simp only [delete_node] at this
      simp [delete_node, at_slot, this]

theorem insert_word_past_end (word : CStr) (k : Nat) (p : s_word_node)
    (hk : (entries p).length < k) : insert_word word k p = p := by
  induction k generalizing p with
  | zero => simp at hk
  | succ k ih =>
    cases p with
    | NULL => simp [insert_word, at_slot]
    | node w next =>
      have hk2 : (entries next).length < k := by simpa using hk
      have := ih next hk2
      simp only [insert_word] at this
      simp [insert_word, at_slot, this]

/-! ## The cursor of `insert_word_sorted` -/

theorem at_slot_congr (f g : s_word_node → s_word_node) (k : Nat) (p : s_word_node)
    (h : f (slot_content k p) = g (slot_content k p)) : at_slot f k p = at_slot g k p := by
  induction k generalizing p with
  | zero => simpa [at_slot, slot_content] using h
  | succ k ih =>
    cases p with
    | NULL => simp [at_slot]
    | node w next =>
      simp only [slot_content] at h
      simp [at_slot, ih next h]

theorem slot_content_succ (k : Nat) (p : s_word_node) (w : s_word_data) (next : s_word_node)
    (h : slot_content k p = node w next) : slot_content (k + 1) p = next := by
  induction k generalizing p with
  | zero =>
    simp only [slot_content] at h
    rw [h]
    simp [slot_content]
  | succ k ih =>
    cases p with
    | NULL => simp [slot_content] at h
    | node v nxt =>
      simp only [slot_content] at h
      simp only [slot_content]
      exact ih nxt h

theorem at_slot_succ (g : s_word_node → s_word_node) (k : Nat) (p : s_word_node)
    (w : s_word_data) (next : s_word_node) (h : slot_content k p = node w next) :
    at_slot g (k + 1) p = at_slot (fun _ => node w (g next)) k p := by
  induction k generalizing p with
  | zero =>
    simp only [slot_content] at h
    rw [h]
    simp [at_slot]
  | succ k ih =>
    cases p with
    | NULL => simp [slot_content] at h
    | node v nxt =>
      simp only [slot_content] at h
      have := ih nxt h
      simp only [at_slot] at this ⊢
      rw [this]

/-- The loop with its cursor writes, into the slot the cursor stands at, what
`scan_slot` computes from the content of that slot. -/
theorem insert_word_sorted_loop_eq (word : CStr) (head cur : s_word_node) (k : Nat)
    (h : slot_content k head = cur) :
    (insert_word_sorted_loop word head k cur).1 = at_slot (scan_slot word) k head := by
  induction cur generalizing k with
  | NULL =>
    simp only [insert_word_sorted_loop, insert_word]
    apply at_slot_congr
    rw [h]
    simp [scan_slot]
  | node w next ih =>
    simp only [insert_word_sorted_loop]
    by_cases h1 : strcmp word w.data ≥ 0
    · by_cases h2 : 0 = strcmp w.data word
      · simp only [if_pos h1, if_pos h2]
        apply at_slot_congr
        rw [h]
        simp only [scan_slot, if_pos h1, if_pos h2]
      · simp only [if_pos h1, if_neg h2]
        rw [ih (k + 1) (slot_content_succ k head w next h), at_slot_succ _ k head w next h]
        apply at_slot_congr
        rw [h]
        simp only [scan_slot, if_pos h1, if_neg h2]
    · simp only [if_neg h1, insert_word]
      apply at_slot_congr
      rw [h]
      simp only [scan_slot, if_neg h1]

theorem insert_word_sorted_some_eq (word : CStr) (l : s_word_list) :
    insert_word_sorted word (some l) = some ⟨scan_slot word l.head⟩ := by
  simp only [insert_word_sorted]
  rw [insert_word_sorted_loop_eq word l.head l.head 0 rfl]
  simp [at_slot]

theorem run_insert_word_sorted (word : CStr) (l : s_word_list) :
    (Op.insert_word_sorted word).run l = ⟨scan_slot word l.head⟩ := by
  simp [Op.run, insert_word_sorted_some_eq]

/-! ## The scan of `insert_word_sorted` -/

/-- The scan passes every node whose text is below `word` and, on reaching a
node with the text `word`, increments its counter. -/
theorem loop_merge (word : CStr) (pre : List s_word_data) (e : s_word_data)
    (post : List s_word_data) (p : s_word_node)
    (hp : entries p = pre ++ e :: post)
    (hpre : ∀ x ∈ pre, strcmp x.data word < 0) (he : e.data = word) :
    entries (scan_slot word p) =
      pre ++ ⟨e.data, int_incr e.occurrences⟩ :: post := by
  induction pre generalizing p with
  | nil =>
    cases p with
    | NULL => simp at hp
    | node w next =>
      simp at hp
      obtain ⟨h1, h2⟩ := hp
      subst h1
      simp [scan_slot, increment_occurrences, he, strcmp_self, h2]
  | cons x pre ih =>
    cases p with
    | NULL => simp at hp
    | node w next =>
      simp at hp
      obtain ⟨h1, h2⟩ := hp
      subst h1
      have hw : strcmp w.data word < 0 := hpre w (by simp)
      have hsw : strcmp word w.data = -strcmp w.data word := strcmp_swap w.data word
      have hge : strcmp word w.data ≥ 0 := by omega
      have hne : ¬ (0 = strcmp w.data word) := by omega
      have := ih next h2 (fun y hy => hpre y (by simp [hy]))
      simp [scan_slot, hge, hne, this]

/-- The scan passes every node whose text is below `word` and, on reaching
the end of the chain or a node with a text above `word`, puts the new node
there. -/
theorem loop_insert (word : CStr) (pre post : List s_word_data) (p : s_word_node)
    (hp : entries p = pre ++ post)
    (hpre : ∀ x ∈ pre, strcmp x.data word < 0)
    (hpost : ∀ y ∈ post.head?, strcmp word y.data < 0) :
    entries (scan_slot word p) = pre ++ ⟨word, 1⟩ :: post := by
  induction pre generalizing p with
  | nil =>
    cases p with
    | NULL =>
      simp at hp
      simp [scan_slot, create_node, ← hp]
    | node w next =>
      simp at hp
      subst hp
      have hlt : strcmp word w.data < 0 := hpost w (by simp)
      have hge : ¬ (strcmp word w.data ≥ 0) := by omega
      simp [scan_slot, hge, create_node]
  | cons x pre ih =>
    cases p with
    | NULL => simp at hp
    | node w next =>
      simp at hp
      obtain ⟨h1, h2⟩ := hp
      subst h1
      have hw : strcmp w.data word < 0 := hpre w (by simp)
      have hsw : strcmp word w.data = -strcmp w.data word := strcmp_swap w.data word
      have hge : strcmp word w.data ≥ 0 := by omega
      have hne : ¬ (0 = strcmp w.data word) := by omega
      have := ih next h2 (fun y hy => hpre y (by simp [hy]))
      simp [scan_slot, hge, hne, this]

/-- A strictly ascending list of records splits around any word: the records
below it, the record with that text if there is one, the records above it. -/
theorem ascending_split (word : CStr) (l : List s_word_data) (hl : l.Pairwise text_lt) :
    ∃ pre mid post, l = pre ++ mid ++ post ∧
      (∀ x ∈ pre, strcmp x.data word < 0) ∧ (∀ y ∈ post, strcmp word y.data < 0) ∧
      (mid = [] ∨ ∃ e, mid = [e] ∧ e.data = word) := by
  induction l with
  | nil => exact ⟨[], [], [], by simp⟩
  | cons x l ih =>
    rw [List.pairwise_cons] at hl
    obtain ⟨hx, hl2⟩ := hl
    have hsw : strcmp word x.data = -strcmp x.data word := strcmp_swap x.data word
    rcases lt_trichotomy (strcmp x.data word) 0 with h | h | h
    · obtain ⟨pre, mid, post, h1, h2, h3, h4⟩ := ih hl2
      refine ⟨x :: pre, mid, post, by simp [h1], ?_, h3, h4⟩
      intro y hy
      rcases List.mem_cons.1 hy with rfl | hy2
      · exact h
      · exact h2 y hy2
    · have hxw : x.data = word := eq_of_strcmp_eq_zero _ _ h
      refine ⟨[], [x], l, by simp, by simp, ?_, Or.inr ⟨x, rfl, hxw⟩⟩
      intro y hy
      have := hx y hy
      simp only [text_lt, hxw] at this
      exact this
    · have hwx : strcmp word x.data < 0 := by omega
      refine ⟨[], [], x :: l, by simp, by simp, ?_, Or.inl rfl⟩
      intro y hy
      rcases List.mem_cons.1 hy with rfl | hy2
      · exact hwx
      · exact strcmp_lt_trans _ _ _ hwx (hx y hy2)

/-! ## Sorted insertion of a sequence of words -/

theorem ne_of_strcmp_lt (a b : CStr) (h : strcmp a b < 0) : a ≠ b := by
  intro e
  rw [e, strcmp_self] at h
  exact absurd h (by decide)

theorem tally_wrapped_step (ws : List CStr) (word : CStr) (p : s_word_node)
    (h : tally_wrapped ws (entries p)) :
    tally_wrapped (ws ++ [word]) (entries (scan_slot word p)) := by
  obtain ⟨hs, hocc, hmem⟩ := h
  obtain ⟨pre, mid, post, hp, hpre, hpost, hmid⟩ := ascending_split word (entries p) hs
  have hpre_ne : ∀ x ∈ pre, x.data ≠ word := fun x hx => ne_of_strcmp_lt _ _ (hpre x hx)
  have hpost_ne : ∀ x ∈ post, x.data ≠ word := fun x hx => (ne_of_strcmp_lt _ _ (hpost x hx)).symm
  have hcount : ∀ x : s_word_data, x.data ≠ word →
      (ws ++ [word]).count x.data = ws.count x.data := by
    intro x hx
    have : ¬ (word = x.data) := fun e => hx e.symm
    simp [List.count_append, List.count_cons, this]
  rcases hmid with hmid | ⟨e, hmid, he⟩
  · subst hmid
    simp only [List.append_nil] at hp
    have hres := loop_insert word pre post p hp hpre (by
      intro y hy
      exact hpost y (List.mem_of_mem_head? hy))
    rw [hres]
    rw [hp] at hs hocc hmem
    have hnot : word ∉ ws := by
      intro hw
      obtain ⟨e, he, hew⟩ := hmem word hw
      rcases List.mem_append.1 he with h1 | h1
      · exact hpre_ne e h1 hew
      · exact hpost_ne e h1 hew
    rw [List.pairwise_append] at hs
    obtain ⟨hs1, hs2, hs3⟩ := hs
    refine ⟨?_, ?_, ?_⟩
    · rw [List.pairwise_append]
      refine ⟨hs1, List.pairwise_cons.2 ⟨fun y hy => hpost y hy, hs2⟩, ?_⟩
      intro a ha b hb
      rcases List.mem_cons.1 hb with rfl | hb2
      · exact hpre a ha
      · exact hs3 a ha b hb2
    · intro x hx
      rcases List.mem_append.1 hx with h1 | h1
      · have := hocc x (List.mem_append.2 (Or.inl h1))
        exact ⟨List.mem_append.2 (Or.inl this.1), by rw [hcount x (hpre_ne x h1)]; exact this.2⟩
      · rcases List.mem_cons.1 h1 with rfl | h2
        · refine ⟨by simp, ?_⟩
          have : ws.count word = 0 := List.count_eq_zero.2 hnot
          simp [List.count_append, this, int_wrap_one]
        · have := hocc x (List.mem_append.2 (Or.inr h2))
          exact ⟨List.mem_append.2 (Or.inl this.1), by rw [hcount x (hpost_ne x h2)]; exact this.2⟩
    · intro w hw
      rcases List.mem_append.1 hw with h1 | h1
      · obtain ⟨e, he, hew⟩ := hmem w h1
        refine ⟨e, ?_, hew⟩
        rcases List.mem_append.1 he with h2 | h2
        · exact List.mem_append.2 (Or.inl h2)
        · exact List.mem_append.2 (Or.inr (List.mem_cons_of_mem _ h2))
      · have : w = word := by simpa using h1
        exact ⟨⟨word, 1⟩, by simp, this.symm⟩
  · subst hmid
    have hp2 : entries p = pre ++ e :: post := by simpa using hp
    have hres := loop_merge word pre e post p hp2 hpre he
    rw [hres]
    rw [hp2] at hs hocc hmem
    rw [List.pairwise_append] at hs
    obtain ⟨hs1, hs2, hs3⟩ := hs
    rw [List.pairwise_cons] at hs2
    refine ⟨?_, ?_, ?_⟩
    · rw [List.pairwise_append]
      refine ⟨hs1, List.pairwise_cons.2 ⟨fun y hy => hs2.1 y hy, hs2.2⟩, ?_⟩
      intro a ha b hb
      rcases List.mem_cons.1 hb with rfl | hb2
      · exact hs3 a ha e (by simp)
      · exact hs3 a ha b (List.mem_cons_of_mem _ hb2)
    · intro x hx
      rcases List.mem_append.1 hx with h1 | h1
      · have := hocc x (List.mem_append.2 (Or.inl h1))
        exact ⟨List.mem_append.2 (Or.inl this.1), by rw [hcount x (hpre_ne x h1)]; exact this.2⟩
      · rcases List.mem_cons.1 h1 with rfl | h2
        · have := hocc e (by simp)
          refine ⟨List.mem_append.2 (Or.inl this.1), ?_⟩
          simp only
          rw [this.2, int_incr_int_wrap, he]
          simp [List.count_append]
        · have := hocc x (List.mem_append.2 (Or.inr (List.mem_cons_of_mem _ h2)))
          exact ⟨List.mem_append.2 (Or.inl this.1), by rw [hcount x (hpost_ne x h2)]; exact this.2⟩
    · intro w hw
      rcases List.mem_append.1 hw with h1 | h1
      · obtain ⟨e2, he2, hew⟩ := hmem w h1
        rcases List.mem_append.1 he2 with h2 | h2
        · exact ⟨e2, List.mem_append.2 (Or.inl h2), hew⟩
        · rcases List.mem_cons.1 h2 with rfl | h3
          · exact ⟨⟨e2.data, int_incr e2.occurrences⟩, by simp, hew⟩
          · exact ⟨e2, List.mem_append.2 (Or.inr (List.mem_cons_of_mem _ h3)), hew⟩
      · have : w = word := by simpa using h1
        exact ⟨⟨e.data, int_incr e.occurrences⟩, by simp, by rw [this, he]⟩

theorem insert_words_sorted_some (ws : List CStr) (l : s_word_list) :
    ∃ r, insert_words_sorted ws (some l) = some r := by
  induction ws generalizing l with
  | nil => exact ⟨l, rfl⟩
  | cons w ws ih =>
    simp only [insert_words_sorted, List.foldl_cons, insert_word_sorted_some_eq]
    exact ih _

theorem tally_wrapped_fold (ws0 ws : List CStr) (l : s_word_list)
    (h : tally_wrapped ws0 (entries l.head)) :
    tally_wrapped (ws0 ++ ws) (list_entries (insert_words_sorted ws (some l))) := by
  induction ws generalizing ws0 l with
  | nil => simpa [insert_words_sorted, list_entries] using h
  | cons w ws ih =>
    have := ih (ws0 ++ [w]) ⟨scan_slot w l.head⟩ (tally_wrapped_step ws0 w l.head h)
    simpa [insert_words_sorted, insert_word_sorted_some_eq] using this

theorem tally_wrapped_sorted (ws : List CStr) :
    tally_wrapped ws (list_entries (insert_words_sorted ws (some create_word_list))) := by
  have := tally_wrapped_fold [] ws create_word_list (by simp [tally_wrapped, create_word_list])
  simpa using this

theorem entries_with_text_of_mem (l : List s_word_data) (hl : l.Pairwise text_lt)
    (e : s_word_data) (he : e ∈ l) : entries_with_text e.data l = [e] := by
  induction l with
  | nil => simp at he
  | cons x l ih =>
    rw [List.pairwise_cons] at hl
    obtain ⟨hx, hl2⟩ := hl
    rcases List.mem_cons.1 he with rfl | he2
    · have hnil : entries_with_text e.data l = [] := by
        simp only [entries_with_text, List.filter_eq_nil_iff, decide_eq_true_eq]
        intro y hy
        exact (ne_of_strcmp_lt _ _ (hx y hy)).symm
      simp only [entries_with_text] at hnil
      simp [entries_with_text, hnil]
    · have hne : x.data ≠ e.data := ne_of_strcmp_lt _ _ (hx e he2)
      have := ih hl2 he2
      simp only [entries_with_text] at this
      simp [entries_with_text, hne, this]

theorem insert_words_sorted_cons (w : CStr) (ws : List CStr) (list : Option s_word_list) :
    insert_words_sorted (w :: ws) list = insert_words_sorted ws (insert_word_sorted w list) := rfl

theorem insert_word_sorted_same (a : CStr) (o : Int) :
    insert_word_sorted a (some ⟨node ⟨a, o⟩ NULL⟩) = some ⟨node ⟨a, int_incr o⟩ NULL⟩ := by
  simp [insert_word_sorted_some_eq, scan_slot, increment_occurrences, strcmp_self]

theorem insert_word_sorted_empty (a : CStr) :
    insert_word_sorted a (some create_word_list) = some ⟨node ⟨a, 1⟩ NULL⟩ := by
  simp [insert_word_sorted_some_eq, scan_slot, create_word_list, create_node]

theorem insert_same_word (a : CStr) (n : Nat) (x : Int) :
    list_entries (insert_words_sorted (List.replicate n a)
      (some ⟨node ⟨a, int_wrap x⟩ NULL⟩)) = [⟨a, int_wrap (x + n)⟩] := by
  induction n generalizing x with
  | zero => simp [insert_words_sorted, list_entries]
  | succ n ih =>
    rw [List.replicate_succ, insert_words_sorted_cons, insert_word_sorted_same,
      int_incr_int_wrap, ih (x + 1)]
    push_cast
    rw [add_assoc, add_comm 1 (n : Int)]

/-- Sorted insertion of the same word `n` times into the empty list leaves one
node, whose counter is `n` wrapped to the range of `int`. -/
theorem insert_same_word_empty (a : CStr) (n : Nat) (hn : 0 < n) :
    list_entries (insert_words_sorted (List.replicate n a) (some create_word_list)) =
      [⟨a, int_wrap n⟩] := by
  cases n with
  | zero => simp at hn
  | succ n =>
    have h := insert_same_word a n 1
    rw [int_wrap_one] at h
    rw [List.replicate_succ, insert_words_sorted_cons, insert_word_sorted_empty, h]
    push_cast
    rw [add_comm]

theorem run_ops_sorted_inserts (ws : List CStr) (l : s_word_list) :
    entries (run_ops (ws.map Op.insert_word_sorted) l).head =
      list_entries (insert_words_sorted ws (some l)) := by
  induction ws generalizing l with
  | nil => simp [run_ops, insert_words_sorted, list_entries]
  | cons w ws ih =>
    have h := ih ⟨scan_slot w l.head⟩
    simp only [run_ops, insert_words_sorted] at h
    simp only [run_ops, insert_words_sorted, List.map_cons, List.foldl_cons,
      run_insert_word_sorted, insert_word_sorted_some_eq]
    exact h

theorem int_wrap_two_pow : int_wrap ((2147483648 : Nat) : Int) = -2147483648 := by
  rw [int_wrap_eq]
  norm_num

/-! ## Sorted insertion: the claims -/

theorem is_tally_of_wrapped (ws : List CStr) (l : List s_word_data)
    (h : tally_wrapped ws l) (hb : ∀ w ∈ ws, (ws.count w : Int) ≤ INT_MAX) : is_tally ws l := by
  obtain ⟨hs, hocc, hmem⟩ := h
  refine ⟨hs, ?_, ?_⟩
  · intro w
    constructor
    · intro hw
      obtain ⟨e, he, hew⟩ := List.mem_map.1 hw
      exact hew ▸ (hocc e he).1
    · intro hw
      obtain ⟨e, he, hew⟩ := hmem w hw
      exact List.mem_map.2 ⟨e, he, hew⟩
  · intro e he
    obtain ⟨h1, h2⟩ := hocc e he
    rw [h2]
    apply int_wrap_of_range
    · rw [INT_MIN_eq]
      omega
    · exact hb e.data h1

/-- C4 (amended). For every list (however it was built) and every word `w` such
that some node has the text `w`, every node in front of the first such node has
a text below `w` (as in every sorted list) and the counter of that node is
below `INT_MAX`: `insert_word_sorted (w, list)` creates no node, increases the
counter of the first node with text `w` by exactly 1 and leaves every other
node unchanged. -/
theorem sorted_insert_merges (l : s_word_list) (w : CStr)
    (pre : List s_word_data) (e : s_word_data) (post : List s_word_data)
    (hl : entries l.head = pre ++ e :: post)
    (hpre : ∀ x ∈ pre, strcmp x.data w < 0) (he : e.data = w)
    (hmin : INT_MIN ≤ e.occurrences) (hmax : e.occurrences < INT_MAX) :
    list_entries (insert_word_sorted w (some l)) =
      pre ++ ⟨e.data, e.occurrences + 1⟩ :: post := by
  have h := loop_merge w pre e post l.head hl hpre he
  rw [int_incr_of_lt e.occurrences hmin hmax] at h
  simpa [insert_word_sorted_some_eq, list_entries] using h

/-- Witness of C4 (amended): "ccc" inserted into the chain aaa(2), ccc(1),
ddd(1). -/
theorem sorted_insert_merges_witness :
    list_entries (insert_word_sorted str_ccc
      (some ⟨node ⟨str_aaa, 2⟩ (node ⟨str_ccc, 1⟩ (node ⟨str_ddd, 1⟩ NULL))⟩)) =
      [⟨str_aaa, 2⟩] ++ ⟨str_ccc, 1 + 1⟩ :: [⟨str_ddd, 1⟩] :=
  sorted_insert_merges ⟨node ⟨str_aaa, 2⟩ (node ⟨str_ccc, 1⟩ (node ⟨str_ddd, 1⟩ NULL))⟩
    str_ccc [⟨str_aaa, 2⟩] ⟨str_ccc, 1⟩ [⟨str_ddd, 1⟩] rfl (by decide) rfl (by decide)
    (by decide)

/-- Counterexample to C4 as stated: the chain ccc(1), aaa(1), built with
`insert_word`, has a node with the text "aaa"; `insert_word_sorted` of "aaa"
stops at "ccc", creates a second node for "aaa" in front of it and increments
no counter. -/
theorem sorted_insert_unsorted_duplicates :
    entries (insert_word str_ccc 0 (insert_word str_aaa 0 NULL)) =
      [⟨str_ccc, 1⟩, ⟨str_aaa, 1⟩] ∧
    list_entries (insert_word_sorted str_aaa
      (some ⟨insert_word str_ccc 0 (insert_word str_aaa 0 NULL)⟩)) =
      [⟨str_aaa, 1⟩, ⟨str_ccc, 1⟩, ⟨str_aaa, 1⟩] ∧
    list_entries (insert_word_sorted str_aaa
      (some ⟨insert_word str_ccc 0 (insert_word str_aaa 0 NULL)⟩)) ≠
      [⟨str_ccc, 1⟩, ⟨str_aaa, 1 + 1⟩] := by
  decide

/-! ## Unordered insertion and deletion: the claims -/

theorem slot_content_delete_node (k : Nat) (p : s_word_node) :
    slot_content k (delete_node (some k) p) = slot_content (k + 1) p := by
  induction k generalizing p with
  | zero =>
    cases p with
    | NULL => rfl
    | node w next => rfl
  | succ k ih =>
    cases p with
    | NULL => rfl
    | node w next =>
      have := ih next
      simp only [delete_node] at this
      simp only [delete_node, at_slot, slot_content]
      exact this

theorem slot_content_insert_word (word : CStr) (k : Nat) (p : s_word_node)
    (hk : k ≤ chain_length p) :
    slot_content k (insert_word word k p) = node ⟨word, 1⟩ (slot_content k p) := by
  induction k generalizing p with
  | zero => simp [insert_word, at_slot, slot_content, create_node]
  | succ k ih =>
    cases p with
    | NULL => simp [chain_length] at hk
    | node w next =>
      have hk2 : k ≤ chain_length next := by
        simp only [chain_length, entries_node, List.length_cons] at hk ⊢
        omega
      have := ih next hk2
      simp only [insert_word] at this
      simp only [insert_word, at_slot, slot_content]
      exact this

theorem entries_insert_words_at_head (ws : List CStr) (l : s_word_list) :
    entries (insert_words_at_head ws l).head =
      ws.reverse.map (fun w => (⟨w, 1⟩ : s_word_data)) ++ entries l.head := by
  induction ws generalizing l with
  | nil => simp [insert_words_at_head]
  | cons w ws ih =>
    have h := ih ⟨insert_word w 0 l.head⟩
    simp only [insert_words_at_head] at h
    simp only [insert_words_at_head, List.foldl_cons]
    rw [h]
    simp [insert_word, at_slot, create_node]

/-- C6 (amended). Inserting the nine words bbb, ddd, aaa, bbb, ccc, eee, bbb,
aaa, bbb, in that order, each with `insert_word` at the head slot of an empty
list, yields the chain whose texts head to tail are bbb, aaa, bbb, eee, ccc,
bbb, aaa, ddd, bbb, each with counter 1. -/
theorem test_one_chain_entries :
    entries (insert_words_at_head strings create_word_list).head =
      [⟨str_bbb, 1⟩, ⟨str_aaa, 1⟩, ⟨str_bbb, 1⟩, ⟨str_eee, 1⟩, ⟨str_ccc, 1⟩,
       ⟨str_bbb, 1⟩, ⟨str_aaa, 1⟩, ⟨str_ddd, 1⟩, ⟨str_bbb, 1⟩] := by
  decide

/-- Counterexample to C6 as stated: the chain of test one is not bbb, aaa,
eee, ccc, bbb, aaa, ddd, bbb, bbb. -/
theorem test_one_chain_not_as_listed :
    entries (insert_words_at_head strings create_word_list).head ≠
      [⟨str_bbb, 1⟩, ⟨str_aaa, 1⟩, ⟨str_eee, 1⟩, ⟨str_ccc, 1⟩, ⟨str_bbb, 1⟩,
       ⟨str_aaa, 1⟩, ⟨str_ddd, 1⟩, ⟨str_bbb, 1⟩, ⟨str_bbb, 1⟩] := by
  decide

/-- C7. For every chain of `n` nodes and every position `k < n`, `delete_node`
on the slot that references node `k` yields the chain with exactly that node
removed: the nodes in front of it and behind it, unchanged and in order, and
`n - 1` nodes in all; the slot (the head slot for `k = 0`, the `next` field of
the node in front otherwise) holds the former successor of the node. On the
nine-node chain of test one, deleting the third node leaves the other eight
records in order. -/
theorem delete_node_removes (p : s_word_node) (k : Nat) (hk : k < chain_length p) :
    entries (delete_node (some k) p) = (entries p).take k ++ (entries p).drop (k + 1) ∧
    chain_length (delete_node (some k) p) = chain_length p - 1 ∧
    slot_content k (delete_node (some k) p) = slot_content (k + 1) p ∧
    (∀ w next, p = node w next → delete_node (some 0) p = next) ∧
    entries (delete_node (some 2) test_one_chain) =
      [⟨str_bbb, 1⟩, ⟨str_aaa, 1⟩, ⟨str_eee, 1⟩, ⟨str_ccc, 1⟩,
       ⟨str_bbb, 1⟩, ⟨str_aaa, 1⟩, ⟨str_ddd, 1⟩, ⟨str_bbb, 1⟩] := by
  refine ⟨entries_delete_node k p, ?_, slot_content_delete_node k p, ?_, by decide⟩
  · simp only [chain_length] at hk ⊢
    rw [entries_delete_node]
    simp
    omega
  · intro w next hp
    rw [hp]
    rfl

/-- Witness of C7: the third node of the nine-node chain of test one. -/
theorem delete_node_removes_witness :
    2 < chain_length test_one_chain ∧
    chain_length (delete_node (some 2) test_one_chain) = chain_length test_one_chain - 1 :=
  ⟨by decide, (delete_node_removes test_one_chain 2 (by decide)).2.1⟩

theorem mem_entries_insert_word (w : CStr) (k : Nat) (p : s_word_node) (e : s_word_data)
    (he : e ∈ entries (insert_word w k p)) : e ∈ entries p ∨ e = ⟨w, 1⟩ := by
  by_cases hk : k ≤ (entries p).length
  · rw [entries_insert_word w k p hk] at he
    rcases List.mem_append.1 he with h | h
    · exact Or.inl (List.mem_of_mem_take h)
    · rcases List.mem_cons.1 h with h2 | h2
      · exact Or.inr h2
      · exact Or.inl (List.mem_of_mem_drop h2)
  · rw [insert_word_past_end w k p (by omega)] at he
    exact Or.inl he

theorem mem_entries_delete_node (slot : Option Nat) (p : s_word_node) (e : s_word_data)
    (he : e ∈ entries (delete_node slot p)) : e ∈ entries p := by
  cases slot with
  | none => exact he
  | some k =>
    rw [entries_delete_node] at he
    rcases List.mem_append.1 he with h | h
    · exact List.mem_of_mem_take h
    · exact List.mem_of_mem_drop h

theorem mem_entries_sorted_loop (w : CStr) (p : s_word_node) (e : s_word_data)
    (he : e ∈ entries (scan_slot w p)) :
    e ∈ entries p ∨ e = ⟨w, 1⟩ ∨
      ∃ e0 ∈ entries p, e = ⟨e0.data, int_incr e0.occurrences⟩ := by
  induction p with
  | NULL =>
    simp [scan_slot, create_node] at he
    exact Or.inr (Or.inl he)
  | node x next ih =>
    simp only [scan_slot] at he
    split at he
    · split at he
      · simp only [increment_occurrences, entries_node, List.mem_cons] at he
        rcases he with h | h
        · exact Or.inr (Or.inr ⟨x, by simp, h⟩)
        · exact Or.inl (by simp [h])
      · simp only [entries_node, List.mem_cons] at he
        rcases he with h | h
        · exact Or.inl (by simp [h])
        · rcases ih h with h2 | h2 | ⟨e0, h3, h4⟩
          · exact Or.inl (by simp [h2])
          · exact Or.inr (Or.inl h2)
          · exact Or.inr (Or.inr ⟨e0, by simp [h3], h4⟩)
    · simp [create_node] at he
      rcases he with h | h | h
      · exact Or.inr (Or.inl h)
      · exact Or.inl (by simp [h])
      · exact Or.inl (by simp [h])

theorem run_ops_cons (o : Op) (ops : List Op) (l : s_word_list) :
    run_ops (o :: ops) l = run_ops ops (o.run l) := rfl

/-- Every counter lies between 1 and 1 plus the number of calls of
`insert_word_sorted` made so far, as long as that number stays below
`INT_MAX`. -/
theorem run_ops_counters (ops : List Op) (l : s_word_list) (n : Nat)
    (hl : ∀ e ∈ entries l.head, 1 ≤ e.occurrences ∧ e.occurrences ≤ 1 + (n : Int))
    (hb : ((n + ops.countP Op.is_sorted_insert : Nat) : Int) ≤ INT_MAX - 1) :
    ∀ e ∈ entries (run_ops ops l).head,
      1 ≤ e.occurrences ∧
      e.occurrences ≤ 1 + ((n + ops.countP Op.is_sorted_insert : Nat) : Int) := by
  induction ops generalizing l n with
  | nil => simpa [run_ops] using hl
  | cons o ops ih =>
    rw [run_ops_cons]
    rw [INT_MAX_eq] at hb
    cases o with
    | insert_word w k =>
      have hc : (Op.insert_word w k :: ops).countP Op.is_sorted_insert =
          ops.countP Op.is_sorted_insert := by
        simp [List.countP_cons, Op.is_sorted_insert]
      rw [hc] at hb ⊢
      apply ih _ n
      · intro e he
        rcases mem_entries_insert_word w k l.head e he with h | h
        · exact hl e h
        · rw [h]
          simp only
          omega
      · rw [INT_MAX_eq]
        exact hb
    | delete_node slot =>
      have hc : (Op.delete_node slot :: ops).countP Op.is_sorted_insert =
          ops.countP Op.is_sorted_insert := by
        simp [List.countP_cons, Op.is_sorted_insert]
      rw [hc] at hb ⊢
      apply ih _ n
      · intro e he
        exact hl e (mem_entries_delete_node slot l.head e he)
      · rw [INT_MAX_eq]
        exact hb
    | insert_word_sorted w =>
      have hc : (Op.insert_word_sorted w :: ops).countP Op.is_sorted_insert =
          ops.countP Op.is_sorted_insert + 1 := by
        simp [List.countP_cons, Op.is_sorted_insert]
      rw [hc] at hb ⊢
      have hn : n + (ops.countP Op.is_sorted_insert + 1) =
          (n + 1) + ops.countP Op.is_sorted_insert := by omega
      rw [hn] at hb ⊢
      apply ih _ (n + 1)
      · intro e he
        rw [run_insert_word_sorted] at he
        rcases mem_entries_sorted_loop w l.head e he with h | h | ⟨e0, h1, h2⟩
        · have := hl e h
          push_cast
          omega
        · rw [h]
          refine ⟨le_refl _, ?_⟩
          simp only
          push_cast
          omega
        · have h3 := hl e0 h1
          have h4 : int_incr e0.occurrences = e0.occurrences + 1 := by
            apply int_incr_of_lt
            · rw [INT_MIN_eq]
              omega
            · rw [INT_MAX_eq]
              push_cast at hb
              omega
          rw [h2]
          simp only
          rw [h4]
          push_cast
          omega
      · rw [INT_MAX_eq]
        exact hb

/-- C9 (amended). `occurrences ≥ 1` holds for every node of every list
reachable from the empty list by a finite sequence of `insert_word`,
`insert_word_sorted` and `delete_node` calls of which at most `INT_MAX - 1`
are calls of `insert_word_sorted`. -/
theorem occurrences_positive (ops : List Op)
    (h : (ops.countP Op.is_sorted_insert : Int) ≤ INT_MAX - 1) :
    ∀ e ∈ entries (run_ops ops create_word_list).head, 1 ≤ e.occurrences := by
  intro e he
  have h0 := run_ops_counters ops create_word_list 0 (by simp [create_word_list])
    (by simpa using h) e he
  exact h0.1

/-- Witness of C9 (amended): a sequence with the three kinds of call. -/
theorem occurrences_positive_witness :
    (([Op.insert_word str_bbb 0, Op.insert_word_sorted str_bbb, Op.insert_word_sorted str_aaa,
        Op.delete_node (some 0)].countP Op.is_sorted_insert : Nat) : Int) ≤ INT_MAX - 1 ∧
    ∀ e ∈ entries (run_ops [Op.insert_word str_bbb 0, Op.insert_word_sorted str_bbb,
        Op.insert_word_sorted str_aaa, Op.delete_node (some 0)] create_word_list).head,
      1 ≤ e.occurrences :=
  ⟨by decide, occurrences_positive _ (by decide)⟩

/-- Counterexample to C9 as stated: after 2^31 calls of `insert_word_sorted`
with "aaa" on the empty list, the counter of the one node is `INT_MIN`. -/
theorem occurrences_overflow :
    ¬ ∀ e ∈ entries (run_ops (List.replicate 2147483648 (Op.insert_word_sorted str_aaa))
        create_word_list).head, 1 ≤ e.occurrences := by
  intro h
  rw [← List.map_replicate, run_ops_sorted_inserts,
    insert_same_word_empty str_aaa 2147483648 (by norm_num), int_wrap_two_pow] at h
  have h2 := h ⟨str_aaa, -2147483648⟩ (List.mem_singleton.2 rfl)
  norm_num at h2

/-! ## Deleting the list -/

theorem delete_word_list_loop_eq (p : s_word_node) :
    delete_word_list_loop ⟨p⟩ = (⟨NULL⟩, chain_length p) := by
  induction p with
  | NULL =>
    rw [delete_word_list_loop]
    simp [chain_length]
  | node w next ih =>
    rw [delete_word_list_loop]
    simp [delete_node, at_slot, delete_node_slot, ih, chain_length]

theorem delete_head_times_succ (n : Nat) (w : s_word_data) (next : s_word_node) :
    delete_head_times (n + 1) ⟨node w next⟩ = delete_head_times n ⟨next⟩ := by
  simp [delete_head_times, Function.iterate_succ, delete_node, at_slot, delete_node_slot]

theorem delete_head_times_length (p : s_word_node) :
    delete_head_times (chain_length p) ⟨p⟩ = ⟨NULL⟩ := by
  induction p with
  | NULL => simp [delete_head_times, chain_length]
  | node w next ih =>
    have : chain_length (node w next) = chain_length next + 1 := by simp [chain_length]
    rw [this, delete_head_times_succ, ih]

theorem delete_head_times_lt (p : s_word_node) (j : Nat) (hj : j < chain_length p) :
    (delete_head_times j ⟨p⟩).head ≠ NULL := by
  induction p generalizing j with
  | NULL => simp [chain_length] at hj
  | node w next ih =>
    cases j with
    | zero => simp [delete_head_times]
    | succ j =>
      rw [delete_head_times_succ]
      apply ih
      simp [chain_length] at hj ⊢
      omega

theorem at_slot_fixed (f : s_word_node → s_word_node) (k : Nat) (p : s_word_node)
    (h : f (slot_content k p) = slot_content k p) : at_slot f k p = p := by
  induction k generalizing p with
  | zero => simpa [at_slot, slot_content] using h
  | succ k ih =>
    cases p with
    | NULL => simp [at_slot]
    | node w next =>
      simp only [slot_content] at h
      simp [at_slot, ih next h]

theorem slot_content_end (p : s_word_node) : slot_content (chain_length p) p = NULL := by
  induction p with
  | NULL => rfl
  | node w next ih =>
    simp only [chain_length, entries_node, List.length_cons, slot_content]
    exact ih

/-- C11. `delete_node` does nothing when the position holds no node: for every
chain, a call on a slot whose content is `NULL` (such as the head slot of an
empty list, or the `next` field of the last node) leaves the chain as it was,
and so does a call with a `NULL` slot pointer; the function returns in both
cases. -/
theorem delete_node_empty_slot (p : s_word_node) (k : Nat) (h : slot_content k p = NULL) :
    delete_node (some k) p = p ∧ delete_node none p = p ∧
    delete_node (some (chain_length p)) p = p ∧
    delete_node (some 0) create_word_list.head = create_word_list.head := by
  refine ⟨?_, rfl, ?_, rfl⟩
  · simp only [delete_node]
    apply at_slot_fixed
    rw [h]
    rfl
  · simp only [delete_node]
    apply at_slot_fixed
    rw [slot_content_end]
    rfl

/-- Witness of C11: the `next` field of the last node of the chain bbb(1),
aaa(1). -/
theorem delete_node_empty_slot_witness :
    slot_content 2 (node ⟨str_bbb, 1⟩ (node ⟨str_aaa, 1⟩ NULL)) = NULL ∧
    delete_node (some 2) (node ⟨str_bbb, 1⟩ (node ⟨str_aaa, 1⟩ NULL)) =
      node ⟨str_bbb, 1⟩ (node ⟨str_aaa, 1⟩ NULL) :=
  ⟨rfl, (delete_node_empty_slot (node ⟨str_bbb, 1⟩ (node ⟨str_aaa, 1⟩ NULL)) 2 rfl).1⟩

/-- C12. `delete_word_data` is idempotent: whether the text reference holds a
text or is `NULL` already, the call leaves it `NULL`, and a second call on the
same reference changes nothing. -/
theorem delete_word_data_idempotent (p : Option CStr) :
    delete_word_data p = none ∧
    delete_word_data (delete_word_data p) = delete_word_data p := by
  cases p with
  | none => exact ⟨rfl, rfl⟩
  | some w => exact ⟨rfl, rfl⟩

theorem mem_takeWhile_below (w : CStr) (l : List s_word_data) (x : s_word_data)
    (hx : x ∈ l.takeWhile (text_below w)) : strcmp x.data w < 0 := by
  induction l with
  | nil => simp at hx
  | cons y l ih =>
    by_cases hy : text_below w y = true
    · rw [List.takeWhile_cons_of_pos hy] at hx
      rcases List.mem_cons.1 hx with rfl | h
      · simpa [text_below] using hy
      · exact ih h
    · rw [List.takeWhile_cons_of_neg hy] at hx
      simp at hx

theorem head_dropWhile_below (w : CStr) (l : List s_word_data) (y : s_word_data)
    (hy : y ∈ (l.dropWhile (text_below w)).head?) : ¬ strcmp y.data w < 0 := by
  induction l with
  | nil => simp at hy
  | cons x l ih =>
    by_cases hx : text_below w x = true
    · rw [List.dropWhile_cons_of_pos hx] at hy
      exact ih hy
    · rw [List.dropWhile_cons_of_neg hx] at hy
      simp only [List.head?_cons, Option.mem_def, Option.some.injEq] at hy
      subst hy
      simpa [text_below] using hx

theorem entries_slot_content (k : Nat) (p : s_word_node) :
    entries (slot_content k p) = (entries p).drop k := by
  induction k generalizing p with
  | zero => simp [slot_content]
  | succ k ih =>
    cases p with
    | NULL => simp [slot_content]
    | node w next => simp [slot_content, ih next]

/-- The cursor at the `return` of the loop: it has moved past the leading
nodes whose text is below the word, and no further. -/
theorem insert_word_sorted_loop_cursor (word : CStr) (head cur : s_word_node) (k : Nat) :
    (insert_word_sorted_loop word head k cur).2 =
      k + ((entries cur).takeWhile (text_below word)).length := by
  induction cur generalizing k with
  | NULL => simp [insert_word_sorted_loop]
  | node w next ih =>
    have hsw : strcmp word w.data = -strcmp w.data word := strcmp_swap w.data word
    simp only [insert_word_sorted_loop, entries_node]
    by_cases h1 : strcmp word w.data ≥ 0
    · by_cases h2 : 0 = strcmp w.data word
      · have hb : ¬ (text_below word w = true) := by
          simp only [text_below, decide_eq_true_eq]
          omega
        simp only [if_pos h1, if_pos h2, List.takeWhile_cons_of_neg hb]
        simp
      · have hb : text_below word w = true := by
          simp only [text_below, decide_eq_true_eq]
          omega
        simp only [if_pos h1, if_neg h2, List.takeWhile_cons_of_pos hb, ih (k + 1),
          List.length_cons]
        omega
    · have hb : ¬ (text_below word w = true) := by
        simp only [text_below, decide_eq_true_eq]
        omega
      simp only [if_neg h1, List.takeWhile_cons_of_neg hb]
      simp

theorem take_takeWhile_length (w : CStr) (l : List s_word_data) :
    l.take (l.takeWhile (text_below w)).length = l.takeWhile (text_below w) ∧
    l.drop (l.takeWhile (text_below w)).length = l.dropWhile (text_below w) := by
  induction l with
  | nil => simp
  | cons x l ih =>
    by_cases hx : text_below w x = true
    · rw [List.takeWhile_cons_of_pos hx, List.dropWhile_cons_of_pos hx]
      simp only [List.length_cons, List.take_succ_cons, List.drop_succ_cons]
      rw [ih.1, ih.2]
      exact ⟨rfl, rfl⟩
    · rw [List.takeWhile_cons_of_neg hx, List.dropWhile_cons_of_neg hx]
      simp

/-- C16. `insert_word_sorted` returns on every chain, after one pass from the
head: the cursor only moves forward, past the leading nodes with a text below
the word, so on a list of `n` nodes the loop advances it at most `n` times
before the merge or the insertion. -/
theorem sorted_insert_single_pass (word : CStr) (l : s_word_list) :
    (insert_word_sorted_loop word l.head 0 l.head).2 =
      ((entries l.head).takeWhile (text_below word)).length ∧
    (insert_word_sorted_loop word l.head 0 l.head).2 ≤ chain_length l.head ∧
    ∃ r, insert_word_sorted word (some l) = some r := by
  have hc := insert_word_sorted_loop_cursor word l.head l.head 0
  rw [Nat.zero_add] at hc
  refine ⟨hc, ?_, ⟨_, rfl⟩⟩
  rw [hc, chain_length]
  exact (List.takeWhile_sublist _).length_le

/-! ## Two sorted insertions in either order -/

theorem scan_slot_above (word : CStr) (w : s_word_data) (next : s_word_node)
    (h : strcmp word w.data < 0) :
    scan_slot word (node w next) = node ⟨word, 1⟩ (node w next) := by
  have h1 : ¬ (strcmp word w.data ≥ 0) := by omega
  simp [scan_slot, h1, create_node]

theorem scan_slot_same (w : s_word_data) (next : s_word_node) :
    scan_slot w.data (node w next) = node ⟨w.data, int_incr w.occurrences⟩ next := by
  simp [scan_slot, strcmp_self, increment_occurrences]

theorem scan_slot_below (word : CStr) (w : s_word_data) (next : s_word_node)
    (h : strcmp w.data word < 0) :
    scan_slot word (node w next) = node w (scan_slot word next) := by
  have hsw : strcmp word w.data = -strcmp w.data word := strcmp_swap w.data word
  have h1 : strcmp word w.data ≥ 0 := by omega
  have h2 : ¬ (0 = strcmp w.data word) := by omega
  simp only [scan_slot, if_pos h1, if_neg h2]

theorem strcmp_cases (a b : CStr) : strcmp a b < 0 ∨ a = b ∨ strcmp b a < 0 := by
  have hsw : strcmp b a = -strcmp a b := strcmp_swap a b
  rcases lt_trichotomy (strcmp a b) 0 with h | h | h
  · exact Or.inl h
  · exact Or.inr (Or.inl (eq_of_strcmp_eq_zero a b h))
  · exact Or.inr (Or.inr (by omega))

/-- Two new words in front of one node: the smaller one comes first. -/
theorem scan_slot_comm_front (x y : CStr) (p : s_word_node)
    (hx : scan_slot x p = node ⟨x, 1⟩ p) (hy : scan_slot y p = node ⟨y, 1⟩ p)
    (hxy : strcmp x y < 0) :
    scan_slot x (scan_slot y p) = scan_slot y (scan_slot x p) := by
  rw [hx, hy]
  rw [scan_slot_above x ⟨y, 1⟩ p hxy, scan_slot_below y ⟨x, 1⟩ p hxy, hy]

theorem scan_slot_comm (x y : CStr) (p : s_word_node) :
    scan_slot x (scan_slot y p) = scan_slot y (scan_slot x p) := by
  induction p with
  | NULL =>
    have hx : scan_slot x NULL = node ⟨x, 1⟩ NULL := by simp [scan_slot, create_node]
    have hy : scan_slot y NULL = node ⟨y, 1⟩ NULL := by simp [scan_slot, create_node]
    rcases strcmp_cases x y with h | h | h
    · exact scan_slot_comm_front x y NULL hx hy h
    · rw [h]
    · exact (scan_slot_comm_front y x NULL hy hx h).symm
  | node w next ih =>
    rcases strcmp_cases x w.data with hxw | hxw | hxw
    · rcases strcmp_cases y w.data with hyw | hyw | hyw
      · have hx := scan_slot_above x w next hxw
        have hy := scan_slot_above y w next hyw
        rcases strcmp_cases x y with h | h | h
        · exact scan_slot_comm_front x y _ hx hy h
        · rw [h]
        · exact (scan_slot_comm_front y x _ hy hx h).symm
      · subst hyw
        rw [scan_slot_same, scan_slot_above x w next hxw]
        rw [scan_slot_above x ⟨w.data, int_incr w.occurrences⟩ next hxw]
        rw [scan_slot_below w.data ⟨x, 1⟩ (node w next) hxw, scan_slot_same]
      · have hxy : strcmp x y < 0 := strcmp_lt_trans x w.data y hxw hyw
        rw [scan_slot_below y w next hyw, scan_slot_above x w next hxw]
        rw [scan_slot_above x w (scan_slot y next) hxw]
        rw [scan_slot_below y ⟨x, 1⟩ (node w next) hxy, scan_slot_below y w next hyw]
    · subst hxw
      rcases strcmp_cases y w.data with hyw | hyw | hyw
      · rw [scan_slot_same, scan_slot_above y w next hyw]
        rw [scan_slot_above y ⟨w.data, int_incr w.occurrences⟩ next hyw]
        rw [scan_slot_below w.data ⟨y, 1⟩ (node w next) hyw, scan_slot_same]
      · rw [hyw]
      · rw [scan_slot_same, scan_slot_below y w next hyw]
        rw [scan_slot_same]
        rw [scan_slot_below y ⟨w.data, int_incr w.occurrences⟩ next hyw]
    · rcases strcmp_cases y w.data with hyw | hyw | hyw
      · have hyx : strcmp y x < 0 := strcmp_lt_trans y w.data x hyw hxw
        rw [scan_slot_below x w next hxw, scan_slot_above y w next hyw]
        rw [scan_slot_above y w (scan_slot x next) hyw]
        rw [scan_slot_below x ⟨y, 1⟩ (node w next) hyx, scan_slot_below x w next hxw]
      · subst hyw
        rw [scan_slot_same, scan_slot_below x w next hxw]
        rw [scan_slot_same]
        rw [scan_slot_below x ⟨w.data, int_incr w.occurrences⟩ next hxw]
      · rw [scan_slot_below x w next hxw, scan_slot_below y w next hyw]
        rw [scan_slot_below x w _ hxw, scan_slot_below y w _ hyw, ih]

theorem ascending_scan_slot (word : CStr) (p : s_word_node)
    (hs : (entries p).Pairwise text_lt) : (entries (scan_slot word p)).Pairwise text_lt := by
  obtain ⟨pre, mid, post, hp, hpre, hpost, hmid⟩ := ascending_split word (entries p) hs
  rcases hmid with hmid | ⟨e, hmid, he⟩
  · subst hmid
    simp only [List.append_nil] at hp
    rw [loop_insert word pre post p hp hpre (fun y hy => hpost y (List.mem_of_mem_head? hy))]
    rw [hp, List.pairwise_append] at hs
    obtain ⟨hs1, hs2, hs3⟩ := hs
    rw [List.pairwise_append]
    refine ⟨hs1, List.pairwise_cons.2 ⟨fun y hy => hpost y hy, hs2⟩, ?_⟩
    intro a ha b hb
    rcases List.mem_cons.1 hb with rfl | hb2
    · exact hpre a ha
    · exact hs3 a ha b hb2
  · subst hmid
    have hp2 : entries p = pre ++ e :: post := by simpa using hp
    rw [loop_merge word pre e post p hp2 hpre he]
    rw [hp2, List.pairwise_append] at hs
    obtain ⟨hs1, hs2, hs3⟩ := hs
    rw [List.pairwise_cons] at hs2
    rw [List.pairwise_append]
    refine ⟨hs1, List.pairwise_cons.2 ⟨fun y hy => hs2.1 y hy, hs2.2⟩, ?_⟩
    intro a ha b hb
    rcases List.mem_cons.1 hb with rfl | hb2
    · exact hs3 a ha e (by simp)
    · exact hs3 a ha b (List.mem_cons_of_mem _ hb2)

theorem ascending_delete_node (slot : Option Nat) (p : s_word_node)
    (hs : (entries p).Pairwise text_lt) :
    (entries (delete_node slot p)).Pairwise text_lt := by
  cases slot with
  | none => exact hs
  | some k =>
    rw [entries_delete_node]
    have h := List.take_append_drop k (entries p)
    rw [← h] at hs
    rw [List.pairwise_append] at hs ⊢
    obtain ⟨h1, h2, h3⟩ := hs
    have hsub : List.Sublist ((entries p).drop (k + 1)) ((entries p).drop k) := by
      rw [← List.drop_drop 1 k]
      exact List.drop_sublist _ _
    exact ⟨h1, h2.sublist hsub, fun a ha b hb => h3 a ha b (hsub.subset hb)⟩

/-- The two outcomes of the scan on any chain, sorted or not. The cursor stops
behind the leading nodes with a text below the word; if the node there has the
text of the word, its counter is incremented, and if not, or if there is no
node there, one new node is put in that place. -/
theorem scan_slot_shape (word : CStr) (p : s_word_node) :
    (∃ e post, (entries p).dropWhile (text_below word) = e :: post ∧ e.data = word ∧
      entries (scan_slot word p) =
        (entries p).takeWhile (text_below word) ++ ⟨word, int_incr e.occurrences⟩ :: post) ∨
    ((∀ y ∈ ((entries p).dropWhile (text_below word)).head?, y.data ≠ word) ∧
      entries (scan_slot word p) =
        (entries p).takeWhile (text_below word) ++
          ⟨word, 1⟩ :: (entries p).dropWhile (text_below word)) := by
  have hsplit := (List.takeWhile_append_dropWhile (text_below word) (entries p)).symm
  have hpre : ∀ x ∈ (entries p).takeWhile (text_below word), strcmp x.data word < 0 :=
    fun x hx => mem_takeWhile_below word _ x hx
  by_cases hm : ∀ y ∈ ((entries p).dropWhile (text_below word)).head?, y.data ≠ word
  · refine Or.inr ⟨hm, loop_insert word _ _ p hsplit hpre ?_⟩
    intro y hy
    have h1 := head_dropWhile_below word _ y hy
    have hsw : strcmp word y.data = -strcmp y.data word := strcmp_swap y.data word
    have h3 : strcmp y.data word ≠ 0 := fun e0 => hm y hy (eq_of_strcmp_eq_zero _ _ e0)
    omega
  · cases hd : (entries p).dropWhile (text_below word) with
    | nil =>
      rw [hd] at hm
      simp at hm
    | cons e post =>
      rw [hd] at hm hsplit
      have he : e.data = word := by
        by_contra hne
        apply hm
        intro y hy
        simp only [List.head?_cons, Option.mem_def, Option.some.injEq] at hy
        rw [← hy]
        exact hne
      refine Or.inl ⟨e, post, rfl, he, ?_⟩
      have := loop_merge word _ e post p hsplit hpre he
      rw [he] at this
      exact this

theorem total_occurrences_append (a b : List s_word_data) :
    total_occurrences (a ++ b) = total_occurrences a + total_occurrences b := by
  simp [total_occurrences]

theorem total_occurrences_cons (e : s_word_data) (b : List s_word_data) :
    total_occurrences (e :: b) = e.occurrences + total_occurrences b := by
  simp [total_occurrences]

theorem delete_node_insert_word (w : CStr) (k : Nat) (p : s_word_node) :
    delete_node (some k) (insert_word w k p) = p := by
  induction k generalizing p with
  | zero => rfl
  | succ k ih =>
    cases p with
    | NULL => rfl
    | node v next =>
      have := ih next
      simp only [delete_node, insert_word] at this
      simp only [delete_node, insert_word, at_slot]
      rw [this]

end LinkedList
